import Mathlib

/-!
# Verification of `rustc_span` (span algebra, source-file tables, stable hashing)

A shallow embedding of `compiler/rustc_span/src/lib.rs`:

* spans are represented by their decoded `SpanData` (the `Span` handle is an
  interned `(lo, hi, ctxt, parent)` tuple and `data()` returns exactly the
  interned tuple, so the algebra below works on the tuple directly);
* machine integers (`u32` byte positions, `u64` hash words, `u8` raw diff
  bytes) are `Nat` with explicit `% 2 ^ w` where a cast or wrap matters;
* source text is a list of byte values;
* the stable hasher and the metadata encoder are modelled as emitters of
  token lists: each `Hash::hash`/`emit_*` call appends one token, so two
  calls emit the same bytes iff they emit the same token lists.

`SyntaxContext` is an opaque hygiene capability in the source; it is modelled
as a `Nat` whose root context is `0` (`is_root` is the only operation the
embedded code uses). `LocalDefId` is likewise modelled as a `Nat`.
-/

/-- `SpanData` from `rustc_span`: the decoded content of a span.
`lo`/`hi` are `u32` byte positions, `ctxt` the opaque `SyntaxContext`
(root = 0), `parent` the optional enclosing `LocalDefId`. -/
structure SpanData where
  lo : Nat
  hi : Nat
  ctxt : Nat
  parent : Option Nat
deriving DecidableEq, Repr

/-- `SyntaxContext::is_root`: the root (non-macro) context is modelled as `0`. -/
def ctxtIsRoot (c : Nat) : Prop := c = 0

instance (c : Nat) : Decidable (ctxtIsRoot c) := by unfold ctxtIsRoot; infer_instance

/-- Modelled from the spec: `Span::new` and the interner round trip live in
`span_encoding.rs`, which is not part of the provided source. Per the spec the
interner is "a table keyed by `(lo, hi, ctxt, parent)`" and "decoding a handle
back to `SpanData` must be O(1)", so creating a span from its four fields and
decoding it back is the identity on the tuple. -/
def Span.new (lo hi : Nat) (ctxt : Nat) (parent : Option Nat) : SpanData :=
  ⟨lo, hi, ctxt, parent⟩

namespace SpanData

/-- `SpanData::is_dummy`: `self.lo.0 == 0 && self.hi.0 == 0`. -/
def is_dummy (s : SpanData) : Prop := s.lo = 0 ∧ s.hi = 0

instance (s : SpanData) : Decidable s.is_dummy := by unfold is_dummy; infer_instance

/-- `SpanData::contains`: `self.lo <= other.lo && other.hi <= self.hi`. -/
def contains (s other : SpanData) : Prop := s.lo ≤ other.lo ∧ other.hi ≤ s.hi

instance (s o : SpanData) : Decidable (s.contains o) := by unfold contains; infer_instance

/-- `Span::overlaps`: `span.lo < other.hi && other.lo < span.hi`. -/
def overlaps (s other : SpanData) : Prop := s.lo < other.hi ∧ other.lo < s.hi

instance (s o : SpanData) : Decidable (s.overlaps o) := by unfold overlaps; infer_instance

/-- `Span::split_at`: splits at byte offset `pos` from `lo`, both halves
keeping the context and parent (`debug_assert!(pos <= len)` is a caller
obligation carried as a theorem hypothesis). -/
def split_at (s : SpanData) (pos : Nat) : SpanData × SpanData :=
  let split_pos := s.lo + pos
  (Span.new s.lo split_pos s.ctxt s.parent,
   Span.new split_pos s.hi s.ctxt s.parent)

/-- `Span::to`: if the contexts differ and one side is the root context the
other side is returned whole; otherwise the enclosing `[min lo, max hi]` span
with the non-root context and the shared parent (or `None`). -/
def toSpan (s e : SpanData) : SpanData :=
  if s.ctxt ≠ e.ctxt ∧ ctxtIsRoot s.ctxt then e
  else if s.ctxt ≠ e.ctxt ∧ ctxtIsRoot e.ctxt then s
  else
    Span.new (min s.lo e.lo) (max s.hi e.hi)
      (if ctxtIsRoot s.ctxt then e.ctxt else s.ctxt)
      (if s.parent = e.parent then s.parent else none)

/-- `Span::until`: same context tie-break as `to`, but spans `[self.lo, end.lo]`. -/
def untilSpan (s e : SpanData) : SpanData :=
  if s.ctxt ≠ e.ctxt ∧ ctxtIsRoot s.ctxt then e
  else if s.ctxt ≠ e.ctxt ∧ ctxtIsRoot e.ctxt then s
  else
    Span.new s.lo e.lo
      (if ctxtIsRoot e.ctxt then e.ctxt else s.ctxt)
      (if s.parent = e.parent then s.parent else none)

end SpanData

/-! ## Stable span hashing (`impl HashStable for Span`) -/

/-- The packed 64-bit `col_line` word of `Span::hash_stable`, transcribed with
Rust's operator precedence (`<<` binds tighter than `&`, so
`(col_hi.0 as u64) & 0xFF << 32` is `(col_hi.0 as u64) &&& (0xFF <<< 32)`).
`col_lo`/`col_hi` are `u32` byte positions (`BytePos`), hence the `% 2 ^ 32`
marking their value range; `line_lo`/`line_hi` are `usize` line numbers. All
intermediate values stay below `2 ^ 64`, so `Nat` arithmetic agrees with the
source's `u64` arithmetic. -/
def colLinePacked (line_lo col_lo line_hi col_hi : Nat) : Nat :=
  let col_lo_trunc := (col_lo % 2 ^ 32) &&& 0xFF
  let line_lo_trunc := (line_lo &&& 0xFFFFFF) <<< 8
  let col_hi_trunc := (col_hi % 2 ^ 32) &&& (0xFF <<< 32)
  let line_hi_trunc := (line_hi &&& 0xFFFFFF) <<< 40
  col_lo_trunc ||| line_lo_trunc ||| col_hi_trunc ||| line_hi_trunc

/-- One token per `Hash::hash`/`hash_stable` call made by `Span::hash_stable`:
the hashed context, the hashed parent, a `u8` tag, a `u32` value, the file's
stable id, or the packed `u64` word. Two executions feed the hasher
identically iff they emit the same token list. -/
inductive HashTok where
  | hCtxt (c : Nat)
  | hParent (p : Option Nat)
  | tag (t : Nat)
  | u32 (n : Nat)
  | fileId (h : Nat)
  | u64 (n : Nat)
deriving DecidableEq, Repr

/-- The pieces of `HashStableContext` that `Span::hash_stable` consults:
the per-session `hash_spans` switch, `def_span` for parent definitions, and
`span_data_to_lines_and_cols` resolving a span through the `SourceMap` to
`(file stable id, line_lo, col_lo, line_hi, col_hi)` (`None` on failure). -/
structure StableCtx where
  hashSpans : Bool
  defSpan : Nat → SpanData
  linesAndCols : SpanData → Option (Nat × Nat × Nat × Nat × Nat)

/-- `Span::hash_stable` as a token emitter. Tags as in the source:
`TAG_VALID_SPAN = 0`, `TAG_INVALID_SPAN = 1`, `TAG_RELATIVE_SPAN = 2`.
The span's `ctxt` and `parent` are hashed first; a dummy span (`lo = hi = 0`)
stops at the invalid tag; a span enclosed in its parent definition hashes the
relative tag and `(lo - def.lo, hi - def.lo)`; otherwise resolution through
the source map yields either the invalid tag or the valid tag, the file's
stable id, the packed word and the raw length `hi - lo`. -/
def hashStableSpan (ctx : StableCtx) (span : SpanData) : List HashTok :=
  if ctx.hashSpans = false then []
  else
    HashTok.hCtxt span.ctxt :: HashTok.hParent span.parent ::
    (if span.is_dummy then [HashTok.tag 1]
     else
       let relative : Option (List HashTok) :=
         match span.parent with
         | some parent =>
           let def_span := ctx.defSpan parent
           if def_span.contains span then
             some [HashTok.tag 2, HashTok.u32 (span.lo - def_span.lo),
                   HashTok.u32 (span.hi - def_span.lo)]
           else none
         | none => none
       match relative with
       | some toks => toks
       | none =>
         match ctx.linesAndCols span with
         | none => [HashTok.tag 1]
         | some (file, line_lo, col_lo, line_hi, col_hi) =>
           [HashTok.tag 0, HashTok.fileId file,
            HashTok.u64 (colLinePacked line_lo col_lo line_hi col_hi),
            HashTok.u32 (span.hi - span.lo)])

/-! ## Persisted encodings (`Encodable`/`Decodable` for `SourceFile` lines and `Span`) -/

/-- One token per `emit_*` call of the metadata encoder: a fixed-width `u32`,
a `u8`, or a run of raw bytes (`emit_raw_bytes`). The encoder renders each
token deterministically, so token-identical output is byte-identical. -/
inductive EncTok where
  | u32 (n : Nat)
  | u8 (n : Nat)
  | bytes (bs : List Nat)
deriving DecidableEq, Repr

/-- `width` little-endian bytes of `v` (the `to_le_bytes` of the `as u8` /
`as u16` / `u32` value): byte `i` is `v / 256 ^ i % 256`. -/
def toLE (width v : Nat) : List Nat :=
  match width with
  | 0 => []
  | w + 1 => v % 256 :: toLE w (v / 256)

/-- Value of a little-endian byte list (`u16::from_le_bytes` /
`u32::from_le_bytes`). -/
def fromLE : List Nat → Nat
  | [] => 0
  | b :: rest => b + 256 * fromLE rest

/-- The inter-line gaps `snd - fst` of `lines.array_windows()` (a `u32`
subtraction; the line table is sorted, so it never underflows). -/
def lineDiffs : List Nat → List Nat
  | [] => []
  | [_] => []
  | a :: b :: rest => (b - a) :: lineDiffs (b :: rest)

/-- `max_line_length` of the `SourceFile` encoder: `0` for a single line,
otherwise the maximum inter-line gap. -/
def maxLineLength (lines : List Nat) : Nat :=
  if lines.length = 1 then 0 else (lineDiffs lines).foldr max 0

/-- `bytes_per_diff`: the match on `max_line_length`
(`0..=0xFF => 1`, `0x100..=0xFFFF => 2`, `_ => 4`). -/
def bytesPerDiff (maxLen : Nat) : Nat :=
  if maxLen ≤ 0xFF then 1 else if maxLen ≤ 0xFFFF then 2 else 4

/-- The line-table part of `impl Encodable for SourceFile`: the `u32` line
count (`lines.len() as u32`), then — for a non-empty table — one `u8` giving
`bytes_per_diff` and the raw little-endian diff list. -/
def encodeLineTable (lines : List Nat) : List EncTok :=
  EncTok.u32 (lines.length % 2 ^ 32) ::
  (if lines.length ≠ 0 then
     let bpd := bytesPerDiff (maxLineLength lines)
     [EncTok.u8 bpd, EncTok.bytes ((lineDiffs lines).flatMap (toLE bpd))]
   else [])

/-- The decoding loop of `convert_diffs_to_lines_frozen`: `num_diffs` values,
the `i`-th read little-endian from `raw_diffs[bytes_per_diff * i ..]`. -/
def decodeDiffs (bpd : Nat) : Nat → List Nat → List Nat
  | 0, _ => []
  | n + 1, raw => fromLE (raw.take bpd) :: decodeDiffs bpd n (raw.drop bpd)

/-- The accumulation of `convert_diffs_to_lines_frozen`: each diff advances
`line_start` and records the new line offset. -/
def addDiffs (line_start : Nat) : List Nat → List Nat
  | [] => []
  | d :: rest => (line_start + d) :: addDiffs (line_start + d) rest

/-- "Diffs" form to "lines" form: line 0 starts at offset 0, then the
cumulative sums of the diffs. -/
def diffsToLines (diffs : List Nat) : List Nat :=
  0 :: addDiffs 0 diffs

/-- The line-table part of `impl Decodable for SourceFile` followed by
`convert_diffs_to_lines_frozen`: a zero line count yields the empty table;
otherwise the `bytes_per_diff` byte and `bytes_per_diff * (num_lines - 1)`
raw bytes are read and decoded to the random-access lines form
(`bytes_per_diff` outside {1, 2, 4} is the converter's `unreachable!`). -/
def decodeLineTable : List EncTok → Option (List Nat)
  | [EncTok.u32 n] => if n = 0 then some [] else none
  | [EncTok.u32 n, EncTok.u8 bpd, EncTok.bytes raw] =>
    if n ≠ 0 ∧ raw.length = bpd * (n - 1) ∧ (bpd = 1 ∨ bpd = 2 ∨ bpd = 4) then
      some (diffsToLines (decodeDiffs bpd (n - 1) raw))
    else none
  | _ => none

/-- `encode_span` of `impl SpanEncoder for FileEncoder`: `span.lo.encode`
then `span.hi.encode`, each a single fixed-width `emit_u32` of the `u32`
byte position. Nothing else of the span is written. -/
def encodeSpan (s : SpanData) : List EncTok :=
  [EncTok.u32 (s.lo % 2 ^ 32), EncTok.u32 (s.hi % 2 ^ 32)]

/-- `decode_span` of `impl SpanDecoder for MemDecoder`: read `lo` then `hi`
(two `u32`s) and rebuild `Span::new(lo, hi, SyntaxContext::root(), None)`;
any other head of the token stream is a decode failure. -/
def decodeSpan : List EncTok → Option SpanData
  | EncTok.u32 lo :: EncTok.u32 hi :: _ => some (Span.new lo hi 0 none)
  | _ => none

/-! ## Source normalization and position conversion -/

/-- `NormalizedPos`: a position (in the normalized file) where normalization
removed bytes, with the cumulative byte-count difference `diff` between the
original and normalized text from that position on. -/
structure NormalizedPos where
  pos : Nat
  diff : Nat
deriving DecidableEq, Repr

/-- The scan of `normalize_newlines`: each `\r\n` (bytes `13, 10`) folds to
`\n`, recording `{pos: cursor + 1, diff: original_gap + gap_len}` where
`cursor` is the normalized position of the folded `\n` (`out_pos` bytes have
been emitted before it) and `gap_len` counts the folds so far. A `\r` not
followed by `\n` is copied untouched. -/
def normalizeNewlinesGo (origGap : Nat) : Nat → Nat → List Nat → List Nat × List NormalizedPos
  | out_pos, gap_len, 13 :: 10 :: rest =>
    let r := normalizeNewlinesGo origGap (out_pos + 1) (gap_len + 1) rest
    (10 :: r.1, ⟨out_pos + 1, origGap + (gap_len + 1)⟩ :: r.2)
  | out_pos, gap_len, b :: rest =>
    let r := normalizeNewlinesGo origGap (out_pos + 1) gap_len rest
    (b :: r.1, r.2)
  | _, _, [] => ([], [])

/-- `normalize_newlines`: no-op without a `\r` byte; otherwise the fold scan,
with `original_gap` taken from the last existing normalization record. The
returned record list extends the one passed in. -/
def normalizeNewlines (src : List Nat) (recs : List NormalizedPos) :
    List Nat × List NormalizedPos :=
  if 13 ∉ src then (src, recs)
  else
    let origGap := ((recs.getLast?).map NormalizedPos.diff).getD 0
    let r := normalizeNewlinesGo origGap 0 0 src
    (r.1, recs ++ r.2)

/-- `remove_bom`: strip a leading UTF-8 byte-order mark (`EF BB BF`),
recording `{pos: 0, diff: 3}`. -/
def removeBom (src : List Nat) : List Nat × List NormalizedPos :=
  match src with
  | 0xEF :: 0xBB :: 0xBF :: rest => (rest, [⟨0, 3⟩])
  | _ => (src, [])

/-- `normalize_src`: BOM removal followed by newline normalization, returning
the normalized text and the accumulated normalization records. -/
def normalizeSrc (src : List Nat) : List Nat × List NormalizedPos :=
  let b := removeBom src
  normalizeNewlines b.1 b.2

/-- The shared binary-search pattern of `original_relative_byte_pos` and
`normalized_byte_pos`: `binary_search_by(|np| key(np).cmp(&target))` followed
by `Ok(i) => diff[i] / Err(0) => 0 / Err(i) => diff[i - 1]`. On a table
sorted by `key` (the only tables these methods are called on) this is the
`diff` of the last record with `key ≤ target`, or `0` when there is none;
the scan below computes exactly that, taking the last qualifying record in
list order. -/
def lastLeDiff (key : NormalizedPos → Nat) (target : Nat) :
    List NormalizedPos → Nat → Nat
  | [], acc => acc
  | np :: rest, acc => lastLeDiff key target rest (if key np ≤ target then np.diff else acc)

/-- `SourceFile::original_relative_byte_pos`: convert the absolute position to
file-relative (`pos - start_pos`), look up the applicable diff by record
position, and add it back. -/
def originalRelativeBytePos (startPos : Nat) (normalizedPos : List NormalizedPos)
    (pos : Nat) : Nat :=
  let rel := pos - startPos
  let diff := lastLeDiff (fun np => np.pos) rel normalizedPos 0
  rel + diff

/-- `SourceFile::normalized_byte_pos`: look up the applicable diff by
`np.pos + np.diff` against `start_pos + offset` and subtract it, returning an
absolute position. -/
def normalizedBytePos (startPos : Nat) (normalizedPos : List NormalizedPos)
    (offset : Nat) : Nat :=
  let diff := lastLeDiff (fun np => np.pos + np.diff) (startPos + offset) normalizedPos 0
  startPos + offset - diff

/-! ## Lazy external source (`SourceFile::add_external_src`) -/

/-- `ExternalSourceKind`: loaded text, not yet attempted, or failed. -/
inductive ExternalSourceKind where
  | present (src : List Nat)
  | absentOk
  | absentErr
deriving DecidableEq, Repr

/-- `ExternalSource`: unneeded for local files, or foreign with a load state
and the file's index inside metadata. -/
inductive ExternalSource where
  | unneeded
  | foreign (kind : ExternalSourceKind) (metadataIndex : Nat)
deriving DecidableEq, Repr

/-- `ExternalSource::get_source`: the text, if present. -/
def ExternalSource.getSource : ExternalSource → Option (List Nat)
  | .foreign (.present src) _ => some src
  | _ => none

/-- The `FreezeLock<ExternalSource>` cell: its value and whether it has been
frozen (`try_write` succeeds exactly when not frozen in this single-session
model). -/
structure ExtCell where
  state : ExternalSource
  frozen : Bool
deriving DecidableEq, Repr

/-- Result of one `add_external_src` call: the cell afterwards, whether the
`get_src` callback was invoked, whether the `panic!("unexpected state")` arm
was reached, and the returned "some source is present" flag. -/
structure AddExtResult where
  cell : ExtCell
  calledBack : Bool
  panicked : Bool
  ret : Bool
deriving DecidableEq, Repr

/-- `SourceFile::add_external_src`. `hashMatches` stands for
`self.src_hash.matches` (the digest computation lives in the external
`md5`/`sha1`/`sha2` crates); `srcIsSome` for `self.src.is_some()`; `getSrc`
for the value the `FnOnce` callback would return. When the cell is not yet
frozen the callback runs, its text is accepted only if the hash matches (and
is then normalized), the `Foreign { AbsentOk }` state is overwritten with
`Present`/`AbsentErr` (any other state is the panic arm) and the cell is
frozen. A result with `panicked = true` marks the `panic!` arm, where the
Rust code aborts; the remaining fields of such a result are not meaningful. -/
def addExternalSrc (hashMatches : List Nat → Bool) (srcIsSome : Bool)
    (cell : ExtCell) (getSrc : Option (List Nat)) : AddExtResult :=
  if cell.frozen = false then
    let src := getSrc.bind fun s =>
      if hashMatches s then some (normalizeSrc s).1 else none
    match cell.state with
    | .foreign .absentOk metadataIndex =>
      let newState : ExternalSource :=
        .foreign (match src with
                  | some s => .present s
                  | none => .absentErr) metadataIndex
      { cell := ⟨newState, true⟩, calledBack := true, panicked := false,
        ret := srcIsSome || newState.getSource.isSome }
    | st =>
      { cell := ⟨st, true⟩, calledBack := true, panicked := true,
        ret := srcIsSome || st.getSource.isSome }
  else
    { cell := cell, calledBack := false, panicked := false,
      ret := srcIsSome || cell.state.getSource.isSome }

/-- The complement of the normalization "gaps": `GapFree prev x tbl` says the
original-text offset `x` does not fall in any half-open interval
`[np.pos + previous diff, np.pos + np.diff)` of a record, i.e. `x` is not an
offset whose bytes the record `np` normalized away. `prev` threads the
previous record's cumulative diff (0 before the first record). -/
def GapFree (prev x : Nat) : List NormalizedPos → Prop
  | [] => True
  | np :: rest => ¬ (np.pos + prev ≤ x ∧ x < np.pos + np.diff) ∧ GapFree np.diff x rest

instance instDecGapFree (prev x : Nat) :
    (tbl : List NormalizedPos) → Decidable (GapFree prev x tbl)
  | [] => isTrue trivial
  | np :: rest =>
    have : Decidable (GapFree np.diff x rest) := instDecGapFree np.diff x rest
    inferInstanceAs (Decidable (¬ (np.pos + prev ≤ x ∧ x < np.pos + np.diff) ∧
      GapFree np.diff x rest))

/-- A stable-hashing context whose source-map resolution always yields file
stable id 7, lines 1-1, start column 0 and end column `colHi`. -/
def colHiCtx (colHi : Nat) : StableCtx :=
  ⟨true, fun _ => ⟨0, 0, 0, none⟩, fun _ => some (7, 1, 0, 1, colHi)⟩

/-- A stable-hashing context (hashing enabled) whose source-map resolution
always succeeds with file stable id 7, line 1, columns 3-3. -/
def emptySpanCtx : StableCtx :=
  ⟨true, fun _ => ⟨0, 0, 0, none⟩, fun _ => some (7, 1, 3, 1, 3)⟩

/-! ## Claim theorems -/

/-- C6: for every pair of spans with equal syntax contexts, the merged span
`a.to(b)` contains both operands (pure byte containment). -/
theorem to_contains_both (a b : SpanData) (h : a.ctxt = b.ctxt) :
    (a.toSpan b).contains a ∧ (a.toSpan b).contains b := by
  unfold SpanData.toSpan SpanData.contains Span.new
  simp only [h, ne_eq, not_true_eq_false, false_and, if_false]
  refine ⟨⟨?_, ?_⟩, ?_, ?_⟩ <;> simp

/-- Witness for C6 at a concrete pair of same-context spans. -/
theorem to_contains_both_witness :
    ((⟨1, 5, 4, none⟩ : SpanData).toSpan ⟨2, 9, 4, some 3⟩).contains ⟨1, 5, 4, none⟩ ∧
    ((⟨1, 5, 4, none⟩ : SpanData).toSpan ⟨2, 9, 4, some 3⟩).contains ⟨2, 9, 4, some 3⟩ :=
  to_contains_both ⟨1, 5, 4, none⟩ ⟨2, 9, 4, some 3⟩ (by decide)

/-- C7: splitting a span at any `k ≤ len` and re-merging the halves with `to`
reproduces the span exactly, including its context and parent. -/
theorem split_at_to_roundtrip (s : SpanData) (k : Nat)
    (hspan : s.lo ≤ s.hi) (hk : k ≤ s.hi - s.lo) :
    ((s.split_at k).1).toSpan ((s.split_at k).2) = s := by
  have hmin : min s.lo (s.lo + k) = s.lo := by omega
  have hmax : max (s.lo + k) s.hi = s.hi := by omega
  obtain ⟨lo, hi, c, p⟩ := s
  dsimp only at hspan hk hmin hmax
  unfold SpanData.split_at SpanData.toSpan Span.new
  simp only [ne_eq, not_true_eq_false, false_and, if_false, ite_self]
  rw [hmin, hmax]
  simp

/-- Witness for C7 at a concrete span and split position. -/
theorem split_at_to_roundtrip_witness :
    (((⟨3, 10, 2, some 5⟩ : SpanData).split_at 4).1).toSpan
      (((⟨3, 10, 2, some 5⟩ : SpanData).split_at 4).2) = ⟨3, 10, 2, some 5⟩ :=
  split_at_to_roundtrip ⟨3, 10, 2, some 5⟩ 4 (by decide) (by decide)

/-- C10: when exactly one of two differing contexts is the root context,
`to` and `until` return the non-root-context operand whole (all four fields),
and the result therefore need not contain the root-context operand (shown at
a concrete pair). -/
theorem to_until_prefer_nonroot (a b : SpanData) (hne : a.ctxt ≠ b.ctxt) :
    ((ctxtIsRoot a.ctxt → a.toSpan b = b ∧ a.untilSpan b = b) ∧
     (ctxtIsRoot b.ctxt → a.toSpan b = a ∧ a.untilSpan b = a)) ∧
    ¬ ((⟨0, 100, 0, none⟩ : SpanData).toSpan ⟨200, 205, 3, none⟩).contains
        ⟨0, 100, 0, none⟩ := by
  refine ⟨⟨fun hroot => ?_, fun hroot => ?_⟩, by decide⟩
  · unfold SpanData.toSpan SpanData.untilSpan
    rw [if_pos ⟨hne, hroot⟩, if_pos ⟨hne, hroot⟩]
    exact ⟨rfl, rfl⟩
  · have hnroot : ¬ ctxtIsRoot a.ctxt := fun h => hne (h.trans hroot.symm)
    unfold SpanData.toSpan SpanData.untilSpan
    rw [if_neg (fun h => hnroot h.2), if_pos ⟨hne, hroot⟩,
        if_neg (fun h => hnroot h.2), if_pos ⟨hne, hroot⟩]
    exact ⟨rfl, rfl⟩

/-- Witness for C10 at a concrete pair with a root-context left operand. -/
theorem to_until_prefer_nonroot_witness :
    (((ctxtIsRoot (⟨0, 100, 0, none⟩ : SpanData).ctxt →
        (⟨0, 100, 0, none⟩ : SpanData).toSpan ⟨200, 205, 3, none⟩ = ⟨200, 205, 3, none⟩ ∧
        (⟨0, 100, 0, none⟩ : SpanData).untilSpan ⟨200, 205, 3, none⟩ = ⟨200, 205, 3, none⟩) ∧
      (ctxtIsRoot (⟨200, 205, 3, none⟩ : SpanData).ctxt →
        (⟨0, 100, 0, none⟩ : SpanData).toSpan ⟨200, 205, 3, none⟩ = ⟨0, 100, 0, none⟩ ∧
        (⟨0, 100, 0, none⟩ : SpanData).untilSpan ⟨200, 205, 3, none⟩ = ⟨0, 100, 0, none⟩)) ∧
     ¬ ((⟨0, 100, 0, none⟩ : SpanData).toSpan ⟨200, 205, 3, none⟩).contains
         ⟨0, 100, 0, none⟩) :=
  to_until_prefer_nonroot ⟨0, 100, 0, none⟩ ⟨200, 205, 3, none⟩ (by decide)

/-- C9: the persisted span encoding is exactly two fixed-width `u32` fields,
`lo` then `hi`; it never depends on the context or parent; and decoding an
encoded span reconstructs the original `lo` and `hi` with the root context
and no parent. -/
theorem span_persist_roundtrip (s : SpanData) (hlo : s.lo < 2 ^ 32) (hhi : s.hi < 2 ^ 32) :
    encodeSpan s = [EncTok.u32 s.lo, EncTok.u32 s.hi] ∧
    (∀ c p, encodeSpan ⟨s.lo, s.hi, c, p⟩ = encodeSpan s) ∧
    decodeSpan (encodeSpan s) = some ⟨s.lo, s.hi, 0, none⟩ := by
  refine ⟨?_, fun c p => rfl, ?_⟩
  · unfold encodeSpan
    rw [Nat.mod_eq_of_lt hlo, Nat.mod_eq_of_lt hhi]
  · show some (Span.new (s.lo % 2 ^ 32) (s.hi % 2 ^ 32) 0 none) = _
    rw [Nat.mod_eq_of_lt hlo, Nat.mod_eq_of_lt hhi]
    rfl

/-- Witness for C9 at a concrete span. -/
theorem span_persist_roundtrip_witness :
    encodeSpan ⟨7, 21, 5, some 2⟩ = [EncTok.u32 7, EncTok.u32 21] ∧
    (∀ c p, encodeSpan ⟨7, 21, c, p⟩ = encodeSpan ⟨7, 21, 5, some 2⟩) ∧
    decodeSpan (encodeSpan ⟨7, 21, 5, some 2⟩) = some ⟨7, 21, 0, none⟩ :=
  span_persist_roundtrip ⟨7, 21, 5, some 2⟩ (by decide) (by decide)

/-- High-mask conjunction with a `u32`-range value is zero: the mask
`0xFF <<< 32` lives entirely in bits 32-39 while `x % 2 ^ 32` has no bit
at or above 32. -/
lemma land_high_mask_eq_zero (x : Nat) : (x % 2 ^ 32) &&& (0xFF <<< 32) = 0 := by
  apply Nat.eq_of_testBit_eq
  intro i
  rw [Nat.testBit_land, Nat.testBit_mod_two_pow, Nat.testBit_shiftLeft, Nat.zero_testBit]
  rcases Nat.lt_or_ge i 32 with h | h
  · have h' : ¬ (32 ≤ i) := by omega
    simp [h']
  · have h' : ¬ (i < 32) := by omega
    simp [h']

/-- C1 (refuting the claim; bug evidence): in `col_hi_trunc`, Rust parses
`(col_hi.0 as u64) & 0xFF << 32` as `col_hi & (0xFF << 32)`, which is zero
for every `u32` value, so `col_hi` never contributes to the packed word:
the packed word is identical for any two end columns, and two otherwise
identical spans whose resolutions differ only in end column (5 versus 200)
feed the stable hasher identically. -/
theorem colLinePacked_ignores_col_hi :
    (∀ line_lo col_lo line_hi col_hi col_hi' : Nat,
      colLinePacked line_lo col_lo line_hi col_hi =
        colLinePacked line_lo col_lo line_hi col_hi') ∧
    hashStableSpan (colHiCtx 5) ⟨1, 4, 0, none⟩ =
      hashStableSpan (colHiCtx 200) ⟨1, 4, 0, none⟩ := by
  refine ⟨fun line_lo col_lo line_hi col_hi col_hi' => ?_, by decide⟩
  unfold colLinePacked
  rw [land_high_mask_eq_zero col_hi, land_high_mask_eq_zero col_hi']

/-- C2 counterexample: the span `(lo = 3, hi = 3)` is empty (`hi = lo`) but
not dummy, and when its source-map resolution succeeds `hash_stable` emits
the valid tag, the file's stable id and position data — it does not stop at
a distinguishing tag after the context and parent. -/
theorem empty_span_still_hashes_positions :
    (⟨3, 3, 0, none⟩ : SpanData).hi = (⟨3, 3, 0, none⟩ : SpanData).lo ∧
    hashStableSpan emptySpanCtx ⟨3, 3, 0, none⟩ =
      [HashTok.hCtxt 0, HashTok.hParent none, HashTok.tag 0, HashTok.fileId 7,
       HashTok.u64 (colLinePacked 1 3 1 3), HashTok.u32 0] ∧
    hashStableSpan emptySpanCtx ⟨3, 3, 0, none⟩ ≠
      [HashTok.hCtxt 0, HashTok.hParent none, HashTok.tag 1] := by
  refine ⟨rfl, rfl, by decide⟩

/-- C2 (amended): for every *dummy* span (`lo = 0` and `hi = 0`), stable
hashing hashes the context and parent fields, then emits the distinguishing
`TAG_INVALID_SPAN` tag and stops without hashing any position information. -/
theorem dummy_span_hash_stops (ctx : StableCtx) (s : SpanData)
    (hon : ctx.hashSpans = true) (hlo : s.lo = 0) (hhi : s.hi = 0) :
    hashStableSpan ctx s =
      [HashTok.hCtxt s.ctxt, HashTok.hParent s.parent, HashTok.tag 1] := by
  unfold hashStableSpan
  rw [hon]
  simp [SpanData.is_dummy, hlo, hhi]

/-- Witness for the amended C2 at a concrete dummy span. -/
theorem dummy_span_hash_stops_witness :
    hashStableSpan emptySpanCtx ⟨0, 0, 4, some 2⟩ =
      [HashTok.hCtxt 4, HashTok.hParent (some 2), HashTok.tag 1] :=
  dummy_span_hash_stops emptySpanCtx ⟨0, 0, 4, some 2⟩ rfl rfl rfl

/-- C5: for a not-yet-frozen `Foreign`/`AbsentOk` source file, a fetch whose
text fails hash validation (or which returns no text) leaves the cell
`Foreign`/`AbsentErr` and frozen (without panicking); and on any frozen cell
a later `add_external_src` call never invokes its callback and leaves the
cell unchanged, so the failure is sticky. -/
theorem add_external_src_failure_sticky (hashMatches : List Nat → Bool)
    (srcIsSome : Bool) (metadataIndex : Nat) (getSrc : Option (List Nat))
    (hfail : ∀ s, getSrc = some s → hashMatches s = false) :
    (addExternalSrc hashMatches srcIsSome
        ⟨.foreign .absentOk metadataIndex, false⟩ getSrc =
      ⟨⟨.foreign .absentErr metadataIndex, true⟩, true, false, srcIsSome⟩) ∧
    (∀ (cell : ExtCell) (g : Option (List Nat)), cell.frozen = true →
      addExternalSrc hashMatches srcIsSome cell g =
        ⟨cell, false, false, srcIsSome || cell.state.getSource.isSome⟩) := by
  constructor
  · unfold addExternalSrc
    cases getSrc with
    | none => simp [ExternalSource.getSource]
    | some s =>
      have h := hfail s rfl
      simp [h, ExternalSource.getSource]
  · intro cell g hfrozen
    unfold addExternalSrc
    rw [hfrozen]
    rfl

/-- Witness for C5: a concrete hash-mismatching fetch on a fresh foreign
file, then a call on the resulting frozen cell. -/
theorem add_external_src_failure_sticky_witness :
    (addExternalSrc (fun _ => false) false ⟨.foreign .absentOk 9, false⟩
        (some [65, 66]) =
      ⟨⟨.foreign .absentErr 9, true⟩, true, false, false⟩) ∧
    (∀ (cell : ExtCell) (g : Option (List Nat)), cell.frozen = true →
      addExternalSrc (fun _ => false) false cell g =
        ⟨cell, false, false, false || cell.state.getSource.isSome⟩) :=
  add_external_src_failure_sticky (fun _ => false) false 9 (some [65, 66])
    (fun _ _ => rfl)

/-- Scanning one non-`\r` byte copies it and advances the output position. -/
lemma go_cons_ne (g out gap b : Nat) (rest : List Nat) (hb : b ≠ 13) :
    normalizeNewlinesGo g out gap (b :: rest) =
      ((b :: (normalizeNewlinesGo g (out + 1) gap rest).1),
       (normalizeNewlinesGo g (out + 1) gap rest).2) := by
  rw [normalizeNewlinesGo.eq_def]
  split
  · rename_i heq
    rw [List.cons.injEq] at heq
    exact absurd heq.1 hb
  · rename_i heq
    rw [List.cons.injEq] at heq
    obtain ⟨rfl, rfl⟩ := heq
    rfl
  · rename_i heq
    cases heq

/-- Scanning a `\r\n` pair emits the `\n` and records the fold. -/
lemma go_crlf (g out gap : Nat) (rest : List Nat) :
    normalizeNewlinesGo g out gap (13 :: 10 :: rest) =
      ((10 :: (normalizeNewlinesGo g (out + 1) (gap + 1) rest).1),
       (⟨out + 1, g + (gap + 1)⟩ :: (normalizeNewlinesGo g (out + 1) (gap + 1) rest).2)) := rfl

/-- A `\r`-free suffix passes through the scan unchanged, with no records. -/
lemma go_no_cr (g : Nat) (l : List Nat) (h : ∀ b ∈ l, b ≠ 13) :
    ∀ out gap, normalizeNewlinesGo g out gap l = (l, []) := by
  induction l with
  | nil => intro out gap; rfl
  | cons b bs ih =>
    intro out gap
    rw [go_cons_ne g out gap b bs (h b (List.mem_cons_self b bs)),
        ih (fun x hx => h x (List.mem_cons_of_mem b hx)) (out + 1) gap]

/-- A `\r`-free prefix passes through the scan unchanged, shifting the output
position by its length. -/
lemma go_append_no_cr (g : Nat) (pre : List Nat) (hpre : ∀ b ∈ pre, b ≠ 13) :
    ∀ (out gap : Nat) (tail : List Nat),
      normalizeNewlinesGo g out gap (pre ++ tail) =
        ((pre ++ (normalizeNewlinesGo g (out + pre.length) gap tail).1),
         (normalizeNewlinesGo g (out + pre.length) gap tail).2) := by
  induction pre with
  | nil => intro out gap tail; simp
  | cons b bs ih =>
    intro out gap tail
    rw [List.cons_append, go_cons_ne g out gap b _ (hpre b (by simp)),
        ih (fun x hx => hpre x (by simp [hx])) (out + 1) gap tail]
    have harith : out + 1 + bs.length = out + (b :: bs).length := by
      simp
      omega
    rw [harith, List.cons_append]

/-- C8: every 40-byte file whose only `\r` is a `\r\n` pair at byte offset 10
normalizes to 39 bytes with the single record `{pos: 11, diff: 1}`, and on
the resulting normalization table `normalized_byte_pos(15) = 14`. -/
theorem crlf_at_ten_normalization (pre post : List Nat)
    (hpre_len : pre.length = 10) (hpost_len : post.length = 28)
    (hpre : ∀ b ∈ pre, b ≠ 13) (hpost : ∀ b ∈ post, b ≠ 13) :
    (pre ++ 13 :: 10 :: post).length = 40 ∧
    (normalizeNewlines (pre ++ 13 :: 10 :: post) []).1.length = 39 ∧
    (normalizeNewlines (pre ++ 13 :: 10 :: post) []).2 = [⟨11, 1⟩] ∧
    normalizedBytePos 0 [⟨11, 1⟩] 15 = 14 := by
  have hgo : normalizeNewlinesGo 0 0 0 (pre ++ 13 :: 10 :: post) =
      (pre ++ 10 :: post, [⟨11, 1⟩]) := by
    rw [go_append_no_cr 0 pre hpre 0 0, hpre_len, go_crlf,
        go_no_cr 0 post hpost]
  have hmem : ¬ (13 ∉ pre ++ 13 :: 10 :: post) := by simp
  unfold normalizeNewlines
  rw [if_neg hmem]
  dsimp only
  have hzero : ((Option.map NormalizedPos.diff
      ([] : List NormalizedPos).getLast?).getD 0) = 0 := rfl
  rw [hzero, hgo]
  refine ⟨?_, ?_, rfl, by decide⟩ <;> simp [hpre_len, hpost_len]

/-- Witness for C8 at a concrete 40-byte file (`'a' * 10 ++ "\r\n" ++ 'b' * 28`). -/
theorem crlf_at_ten_normalization_witness :
    (List.replicate 10 97 ++ 13 :: 10 :: List.replicate 28 98).length = 40 ∧
    (normalizeNewlines (List.replicate 10 97 ++ 13 :: 10 :: List.replicate 28 98) []).1.length = 39 ∧
    (normalizeNewlines (List.replicate 10 97 ++ 13 :: 10 :: List.replicate 28 98) []).2 = [⟨11, 1⟩] ∧
    normalizedBytePos 0 [⟨11, 1⟩] 15 = 14 :=
  crlf_at_ten_normalization (List.replicate 10 97) (List.replicate 28 98)
    (by decide) (by decide) (by decide) (by decide)

/-- A fixed-width little-endian chunk has exactly `width` bytes. -/
lemma toLE_length (w v : Nat) : (toLE w v).length = w := by
  induction w generalizing v with
  | zero => rfl
  | succ w ih => simp [toLE, ih]

/-- Little-endian round trip for values that fit in the width. -/
lemma fromLE_toLE (w v : Nat) (h : v < 256 ^ w) : fromLE (toLE w v) = v := by
  induction w generalizing v with
  | zero =>
    unfold toLE fromLE
    omega
  | succ w ih =>
    have hdiv : v / 256 < 256 ^ w := by
      rw [Nat.div_lt_iff_lt_mul (by norm_num)]
      calc v < 256 ^ (w + 1) := h
        _ = 256 ^ w * 256 := by ring
    unfold toLE fromLE
    rw [ih (v / 256) hdiv]
    omega

/-- The raw diff list is `bytes_per_diff` bytes per diff. -/
lemma flatMap_toLE_length (bpd : Nat) (ds : List Nat) :
    (ds.flatMap (toLE bpd)).length = bpd * ds.length := by
  induction ds with
  | nil => simp
  | cons d ds ih =>
    simp [List.flatMap_cons, ih, toLE_length]
    ring

/-- Decoding the packed raw bytes recovers the diffs when each fits in the
width. -/
lemma decodeDiffs_flatMap (bpd : Nat) (ds : List Nat)
    (h : ∀ d ∈ ds, d < 256 ^ bpd) :
    decodeDiffs bpd ds.length (ds.flatMap (toLE bpd)) = ds := by
  induction ds with
  | nil => rfl
  | cons d ds ih =>
    rw [List.flatMap_cons, List.length_cons]
    unfold decodeDiffs
    have htake : (toLE bpd d ++ ds.flatMap (toLE bpd)).take bpd = toLE bpd d := by
      rw [List.take_left' (toLE_length bpd d)]
    have hdrop : (toLE bpd d ++ ds.flatMap (toLE bpd)).drop bpd = ds.flatMap (toLE bpd) := by
      rw [List.drop_left' (toLE_length bpd d)]
    rw [htake, hdrop, fromLE_toLE bpd d (h d (List.mem_cons_self d ds)),
        ih (fun x hx => h x (List.mem_cons_of_mem d hx))]

/-- Re-accumulating the inter-line gaps of a sorted table restores it. -/
lemma addDiffs_lineDiffs (rest : List Nat) :
    ∀ a, List.Chain' (· ≤ ·) (a :: rest) → addDiffs a (lineDiffs (a :: rest)) = rest := by
  induction rest with
  | nil => intro a _; rfl
  | cons b bs ih =>
    intro a hchain
    have hab : a ≤ b := (List.chain'_cons.mp hchain).1
    unfold lineDiffs addDiffs
    rw [Nat.add_sub_cancel' hab]
    rw [ih b (List.chain'_cons.mp hchain).2]

/-- A table of `n` lines has `n - 1` inter-line gaps. -/
lemma lineDiffs_length (l : List Nat) : (lineDiffs l).length = l.length - 1 := by
  induction l with
  | nil => rfl
  | cons a rest ih =>
    cases rest with
    | nil => rfl
    | cons b bs =>
      unfold lineDiffs
      rw [List.length_cons, ih]
      simp

/-- Every element is bounded by the running `max`. -/
lemma mem_le_foldr_max (xs : List Nat) : ∀ x ∈ xs, x ≤ xs.foldr max 0 := by
  induction xs with
  | nil => simp
  | cons a rest ih =>
    intro x hx
    rcases List.mem_cons.mp hx with rfl | hx'
    · simp [List.foldr_cons]
    · calc x ≤ rest.foldr max 0 := ih x hx'
        _ ≤ max a (rest.foldr max 0) := le_max_right _ _

/-- Inter-line gaps inherit the `u32` bound of the line offsets. -/
lemma lineDiffs_lt (l : List Nat) (h : ∀ x ∈ l, x < 2 ^ 32) :
    ∀ d ∈ lineDiffs l, d < 2 ^ 32 := by
  induction l with
  | nil => simp [lineDiffs]
  | cons a rest ih =>
    cases rest with
    | nil => simp [lineDiffs]
    | cons b bs =>
      intro d hd
      unfold lineDiffs at hd
      rcases List.mem_cons.mp hd with rfl | hd'
      · have hb : b < 2 ^ 32 := h b (by simp)
        omega
      · exact ih (fun x hx => h x (List.mem_cons_of_mem a hx)) d hd'

/-- C3: for every non-empty line table (sorted, starting at offset 0, `u32`
offsets and count), decoding the diff-list form into the random-access lines
form recovers the table, so re-encoding it is token-identical — hence
byte-identical — to the original encoding; the statement is uniform in the
table, covering all three diff widths (`bytes_per_diff` in {1, 2, 4}). -/
theorem line_table_roundtrip (lines : List Nat) (hne : lines ≠ [])
    (h0 : lines.head? = some 0) (hsorted : List.Chain' (· ≤ ·) lines)
    (hbound : ∀ x ∈ lines, x < 2 ^ 32) (hcount : lines.length < 2 ^ 32) :
    decodeLineTable (encodeLineTable lines) = some lines ∧
    (decodeLineTable (encodeLineTable lines)).map encodeLineTable =
      some (encodeLineTable lines) := by
  obtain ⟨a, rest, rfl⟩ : ∃ a rest, lines = a :: rest := by
    cases lines with
    | nil => exact absurd rfl hne
    | cons a rest => exact ⟨a, rest, rfl⟩
  have ha : a = 0 := by simpa using h0
  subst ha
  have hbpd_cases : bytesPerDiff (maxLineLength (0 :: rest)) = 1 ∨
      bytesPerDiff (maxLineLength (0 :: rest)) = 2 ∨
      bytesPerDiff (maxLineLength (0 :: rest)) = 4 := by
    unfold bytesPerDiff
    split_ifs <;> simp
  have hdlt : ∀ d ∈ lineDiffs (0 :: rest), d < 2 ^ 32 := lineDiffs_lt _ hbound
  have hmaxle : ∀ d ∈ lineDiffs (0 :: rest), d ≤ maxLineLength (0 :: rest) := by
    intro d hd
    unfold maxLineLength
    split_ifs with h1
    · exfalso
      have hnil : rest = [] := by
        cases rest with
        | nil => rfl
        | cons x xs => simp at h1
      subst hnil
      simp [lineDiffs] at hd
    · exact mem_le_foldr_max _ d hd
  have hmax : ∀ d ∈ lineDiffs (0 :: rest),
      d < 256 ^ bytesPerDiff (maxLineLength (0 :: rest)) := by
    intro d hd
    unfold bytesPerDiff
    split_ifs with h1 h2
    · have := hmaxle d hd
      norm_num
      omega
    · have := hmaxle d hd
      norm_num
      omega
    · have := hdlt d hd
      norm_num
      omega
  have hlen_mod : (0 :: rest).length % 2 ^ 32 = (0 :: rest).length :=
    Nat.mod_eq_of_lt hcount
  have henc : encodeLineTable (0 :: rest) =
      [EncTok.u32 (0 :: rest).length,
       EncTok.u8 (bytesPerDiff (maxLineLength (0 :: rest))),
       EncTok.bytes ((lineDiffs (0 :: rest)).flatMap
         (toLE (bytesPerDiff (maxLineLength (0 :: rest)))))] := by
    unfold encodeLineTable
    rw [if_pos (by simp), hlen_mod]
  have hrawlen : ((lineDiffs (0 :: rest)).flatMap
      (toLE (bytesPerDiff (maxLineLength (0 :: rest))))).length =
      bytesPerDiff (maxLineLength (0 :: rest)) * ((0 :: rest).length - 1) := by
    rw [flatMap_toLE_length, lineDiffs_length]
  have hdec : decodeLineTable (encodeLineTable (0 :: rest)) = some (0 :: rest) := by
    rw [henc]
    simp only [decodeLineTable]
    rw [if_pos ⟨by simp, hrawlen, hbpd_cases⟩]
    have hn1 : (0 :: rest).length - 1 = (lineDiffs (0 :: rest)).length := by
      rw [lineDiffs_length]
    rw [hn1, decodeDiffs_flatMap _ _ hmax]
    unfold diffsToLines
    rw [addDiffs_lineDiffs rest 0 hsorted]
  exact ⟨hdec, by rw [hdec]; rfl⟩

/-- Witness for C3 on a concrete two-line table whose longest gap (300)
forces the two-byte diff width. -/
theorem line_table_roundtrip_witness :
    (decodeLineTable (encodeLineTable [0, 300]) = some [0, 300] ∧
     (decodeLineTable (encodeLineTable [0, 300])).map encodeLineTable =
       some (encodeLineTable [0, 300])) :=
  line_table_roundtrip [0, 300] (by decide) (by decide)
    (by simp [List.chain'_cons]) (by decide) (by decide)

/-- One scan step of the binary-search embedding. -/
lemma lastLeDiff_cons (key : NormalizedPos → Nat) (target : Nat) (np : NormalizedPos)
    (rest : List NormalizedPos) (acc : Nat) :
    lastLeDiff key target (np :: rest) acc =
      lastLeDiff key target rest (if key np ≤ target then np.diff else acc) := rfl

/-- When no record qualifies the scan returns its accumulator. -/
lemma lastLeDiff_of_none (key : NormalizedPos → Nat) (target : Nat)
    (tbl : List NormalizedPos) (acc : Nat) (h : ∀ np ∈ tbl, ¬ key np ≤ target) :
    lastLeDiff key target tbl acc = acc := by
  induction tbl generalizing acc with
  | nil => rfl
  | cons np rest ih =>
    unfold lastLeDiff
    rw [if_neg (h np (List.mem_cons_self np rest))]
    exact ih acc (fun np' hm => h np' (List.mem_cons_of_mem np hm))

/-- The scan result is the accumulator or the diff of a qualifying record. -/
lemma lastLeDiff_cases (key : NormalizedPos → Nat) (target : Nat)
    (tbl : List NormalizedPos) :
    ∀ acc, lastLeDiff key target tbl acc = acc ∨
      ∃ np ∈ tbl, key np ≤ target ∧ lastLeDiff key target tbl acc = np.diff := by
  induction tbl with
  | nil => intro acc; left; rfl
  | cons np rest ih =>
    intro acc
    by_cases hk : key np ≤ target
    · rcases ih np.diff with h | ⟨np', hm, hk', h⟩
      · right
        refine ⟨np, List.mem_cons_self np rest, hk, ?_⟩
        unfold lastLeDiff
        rw [if_pos hk]
        exact h
      · right
        refine ⟨np', List.mem_cons_of_mem np hm, hk', ?_⟩
        unfold lastLeDiff
        rw [if_pos hk]
        exact h
    · rcases ih acc with h | ⟨np', hm, hk', h⟩
      · left
        unfold lastLeDiff
        rw [if_neg hk]
        exact h
      · right
        refine ⟨np', List.mem_cons_of_mem np hm, hk', ?_⟩
        unfold lastLeDiff
        rw [if_neg hk]
        exact h

/-- The scan result never drops below an accumulator that bounds all diffs. -/
lemma lastLeDiff_acc_le (key : NormalizedPos → Nat) (target : Nat)
    (tbl : List NormalizedPos) (acc : Nat) (h : ∀ np ∈ tbl, acc ≤ np.diff) :
    acc ≤ lastLeDiff key target tbl acc := by
  rcases lastLeDiff_cases key target tbl acc with heq | ⟨np, hm, _, heq⟩
  · rw [heq]
  · rw [heq]
    exact h np hm

/-- Normalized-space round trip, generalized over the threaded accumulator:
looking up by record position after adding the found diff finds the same
diff again, for tables with strictly increasing positions and diffs. -/
lemma lastLeDiff_rev_aux (tbl : List NormalizedPos) :
    ∀ (prev y : Nat),
      List.Pairwise (fun u v => u.pos < v.pos ∧ u.diff < v.diff) tbl →
      (∀ np ∈ tbl, prev ≤ np.diff) →
      lastLeDiff (fun np => np.pos + np.diff)
          (y + lastLeDiff (fun np => np.pos) y tbl prev) tbl prev =
        lastLeDiff (fun np => np.pos) y tbl prev := by
  induction tbl with
  | nil => intro prev y _ _; rfl
  | cons np rest ih =>
    intro prev y hp hd
    obtain ⟨hhead, hrest⟩ := List.pairwise_cons.mp hp
    by_cases hk : np.pos ≤ y
    · have hF : lastLeDiff (fun np => np.pos) y (np :: rest) prev =
          lastLeDiff (fun np => np.pos) y rest np.diff := by
        rw [lastLeDiff_cons, if_pos hk]
      have hdiffs : ∀ np' ∈ rest, np.diff ≤ np'.diff :=
        fun np' hm => le_of_lt (hhead np' hm).2
      have hFge : np.diff ≤ lastLeDiff (fun np => np.pos) y rest np.diff :=
        lastLeDiff_acc_le _ _ _ _ hdiffs
      rw [hF, lastLeDiff_cons,
          if_pos (show np.pos + np.diff ≤
            y + lastLeDiff (fun np => np.pos) y rest np.diff by omega)]
      exact ih np.diff y hrest hdiffs
    · have hnone : ∀ np' ∈ rest, ¬ ((fun np => np.pos) np' ≤ y) := by
        intro np' hm
        have h1 := (hhead np' hm).1
        simp only at h1 ⊢
        omega
      have hF : lastLeDiff (fun np => np.pos) y (np :: rest) prev = prev := by
        rw [lastLeDiff_cons, if_neg hk]
        exact lastLeDiff_of_none _ _ _ _ hnone
      rw [hF]
      have hd_np : prev ≤ np.diff := hd np (List.mem_cons_self np rest)
      rw [lastLeDiff_cons,
          if_neg (show ¬ (np.pos + np.diff ≤ y + prev) by omega)]
      apply lastLeDiff_of_none
      intro np' hm
      have h1 := (hhead np' hm).1
      have h2 := (hhead np' hm).2
      show ¬ (np'.pos + np'.diff ≤ y + prev)
      omega

/-- Original-space round trip, generalized over the threaded accumulator:
off the normalization gaps, looking up by `pos` after subtracting the diff
found by `pos + diff` finds the same diff again. -/
lemma lastLeDiff_fwd_aux (tbl : List NormalizedPos) :
    ∀ (prev x : Nat),
      List.Pairwise (fun u v => u.pos < v.pos ∧ u.diff < v.diff) tbl →
      (∀ np ∈ tbl, prev ≤ np.diff) →
      prev ≤ x →
      GapFree prev x tbl →
      lastLeDiff (fun np => np.pos)
          (x - lastLeDiff (fun np => np.pos + np.diff) x tbl prev) tbl prev =
        lastLeDiff (fun np => np.pos + np.diff) x tbl prev := by
  induction tbl with
  | nil => intro prev x _ _ _ _; rfl
  | cons np rest ih =>
    intro prev x hp hd hpx hgap
    obtain ⟨hhead, hrest⟩ := List.pairwise_cons.mp hp
    obtain ⟨hgap1, hgap2⟩ := hgap
    by_cases hk : np.pos + np.diff ≤ x
    · have hG : lastLeDiff (fun np => np.pos + np.diff) x (np :: rest) prev =
          lastLeDiff (fun np => np.pos + np.diff) x rest np.diff := by
        rw [lastLeDiff_cons, if_pos hk]
      have hdiffs : ∀ np' ∈ rest, np.diff ≤ np'.diff :=
        fun np' hm => le_of_lt (hhead np' hm).2
      have hqual : np.pos + lastLeDiff (fun np => np.pos + np.diff) x rest np.diff ≤ x := by
        rcases lastLeDiff_cases (fun np => np.pos + np.diff) x rest np.diff
          with h | ⟨np', hm, hk', h⟩
        · rw [h]
          omega
        · have h1 := (hhead np' hm).1
          have hk'' : np'.pos + np'.diff ≤ x := hk'
          rw [h]
          omega
      rw [hG, lastLeDiff_cons,
          if_pos (show np.pos ≤
            x - lastLeDiff (fun np => np.pos + np.diff) x rest np.diff by omega)]
      exact ih np.diff x hrest hdiffs (by omega) hgap2
    · have hnone2 : ∀ np' ∈ rest, ¬ ((fun np => np.pos + np.diff) np' ≤ x) := by
        intro np' hm
        have h1 := (hhead np' hm).1
        have h2 := (hhead np' hm).2
        show ¬ (np'.pos + np'.diff ≤ x)
        omega
      have hG : lastLeDiff (fun np => np.pos + np.diff) x (np :: rest) prev = prev := by
        rw [lastLeDiff_cons, if_neg hk]
        exact lastLeDiff_of_none _ _ _ _ hnone2
      rw [hG]
      have hhead_gap : ¬ (np.pos + prev ≤ x) := fun hle => hgap1 ⟨hle, by omega⟩
      rw [lastLeDiff_cons,
          if_neg (show ¬ (np.pos ≤ x - prev) by omega)]
      apply lastLeDiff_of_none
      intro np' hm
      have h1 := (hhead np' hm).1
      show ¬ (np'.pos ≤ x - prev)
      omega

/-- C4 (amended): on a `SourceFile` with `start_pos = 0` and a normalization
table with strictly increasing record positions and cumulative diffs (as
`normalize_src` produces), `normalized_byte_pos` inverts
`original_relative_byte_pos` at every normalized position, and
`original_relative_byte_pos` inverts `normalized_byte_pos` at every
pre-normalization offset that does not fall inside a normalization gap
`[np.pos + previous diff, np.pos + np.diff)`. -/
theorem normalization_inversion (tbl : List NormalizedPos)
    (hp : List.Pairwise (fun u v => u.pos < v.pos ∧ u.diff < v.diff) tbl)
    (y x : Nat) (hgap : GapFree 0 x tbl) :
    normalizedBytePos 0 tbl (originalRelativeBytePos 0 tbl y) = y ∧
    originalRelativeBytePos 0 tbl (normalizedBytePos 0 tbl x) = x := by
  constructor
  · unfold originalRelativeBytePos normalizedBytePos
    simp only [Nat.sub_zero, Nat.zero_add]
    rw [lastLeDiff_rev_aux tbl 0 y hp (fun np _ => Nat.zero_le _)]
    omega
  · unfold originalRelativeBytePos normalizedBytePos
    simp only [Nat.sub_zero, Nat.zero_add]
    rw [lastLeDiff_fwd_aux tbl 0 x hp (fun np _ => Nat.zero_le _) (Nat.zero_le x) hgap]
    have hle : lastLeDiff (fun np => np.pos + np.diff) x tbl 0 ≤ x := by
      rcases lastLeDiff_cases (fun np => np.pos + np.diff) x tbl 0 with h | ⟨np, hm, hk, h⟩
      · rw [h]
        exact Nat.zero_le x
      · have hk' : np.pos + np.diff ≤ x := hk
        rw [h]
        omega
    omega


/-- C4 counterexample: on the table `[{pos: 11, diff: 1}]` — exactly what
normalization produces for a 40-byte file with one `\r\n` at byte 10 — the
valid pre-normalization offset 11 (the `\n` of the pair) maps to 12, not
back to 11; and with `start_pos = 100` the normalized position 105 maps to
104, not back to 105, because `normalized_byte_pos` compares file-relative
record keys against a `start_pos`-based target. -/
theorem normalization_inversion_counterexample :
    ¬ (originalRelativeBytePos 0 [⟨11, 1⟩] (normalizedBytePos 0 [⟨11, 1⟩] 11) = 11) ∧
    ¬ (normalizedBytePos 100 [⟨11, 1⟩] (originalRelativeBytePos 100 [⟨11, 1⟩] 105) = 105) := by
  decide

/-- Witness for the amended C4 on the table `[{pos: 11, diff: 1}]`. -/
theorem normalization_inversion_witness :
    normalizedBytePos 0 [⟨11, 1⟩] (originalRelativeBytePos 0 [⟨11, 1⟩] 25) = 25 ∧
    originalRelativeBytePos 0 [⟨11, 1⟩] (normalizedBytePos 0 [⟨11, 1⟩] 15) = 15 :=
  normalization_inversion [⟨11, 1⟩] (by simp) 25 15 (by decide)
